import Mathlib

/-!
Shallow embedding of lib/crypto/crypto.go from go-aidoc and proofs of the
specified properties of its key codec, hash engine, address derivation and
signature validator.

Byte sequences are modelled as List Nat (each entry a byte value below 256
where a claim needs it); arbitrary-precision unsigned integers (big.Int
values produced by SetBytes) are Nat, and signed big.Int values are Int.
External collaborators whose sources are not part of this repository
snapshot (the Keccak sponge, the RLP structured encoder, the curve group,
the chain_common address helpers and the big-integer padding helper) are
modelled from the specification; each such definition carries a doc comment
starting with the words Modelled from the spec.
-/

namespace Crypto

/-- Interprets a byte sequence as a big-endian unsigned integer, exactly as
big.Int SetBytes does in toECDSA and as the curve collaborator does with the
scalar bytes handed to ScalarBaseMult. -/
def fromBytes (d : List Nat) : Nat :=
  d.foldl (fun acc b => 256 * acc + b) 0

/-- Big-endian encoding of a natural number into exactly len bytes (the value
is taken modulo 256 ^ len, matching a fixed-width dump). -/
def natToBytesBE : Nat → Nat → List Nat
  | _, 0 => []
  | n, len + 1 => natToBytesBE (n / 256) len ++ [n % 256]

/-- Order of the secp256k1 group, the module-level constant secp256k1N of
crypto.go (hex fffffffffffffffffffffffffffffffebaaedce6af48a03bbfd25e8cd0364141). -/
def secp256k1N : Nat :=
  0xfffffffffffffffffffffffffffffffebaaedce6af48a03bbfd25e8cd0364141

/-- Half the group order, the module-level constant secp256k1halfN,
computed as secp256k1N divided by two with integer division. -/
def secp256k1halfN : Nat := secp256k1N / 2

/-- Errors of the key codec, one constructor per distinct failure returned by
toECDSA in crypto.go: the strict length check, the check of D against the
group order, the check of the sign of D, and the absent-coordinate check
after scalar multiplication. -/
inductive KeyError where
  | invalidKeyLength
  | keyOutOfRange
  | keyNonPositive
  | invalidPoint
  deriving DecidableEq, Repr

/-- Modelled from the spec: the curve collaborator operation ScalarBaseMult
(base-point scalar multiplication), whose source is not part of this
repository snapshot. The group generated by the base point is cyclic of order
secp256k1N, so a point is represented abstractly by its discrete logarithm
modulo the order; the residue 0 is the point at infinity (the group
identity), rendered as none, matching absent coordinates. ScalarBaseMult in
the source receives the scalar as big-endian bytes; here it receives the
integer value of those bytes. -/
def scalarBaseMult (k : Nat) : Option Nat :=
  if k % secp256k1N = 0 then none else some (k % secp256k1N)

/-- Private key as assembled by toECDSA: the scalar D (a nonnegative big.Int
value) together with the public point ScalarBaseMult(D), in the abstract
point representation of scalarBaseMult. -/
structure PrivateKey where
  D : Nat
  publicKey : Nat
  deriving DecidableEq, Repr

/-- Embedding of toECDSA from crypto.go. In order: when strict, a byte length
other than the 256-bit curve width fails (invalid length); the bytes are read
as a big-endian unsigned integer D (SetBytes); D at or above secp256k1N
fails; D equal to zero fails (the Sign of a SetBytes result is never
negative, so the Go condition Sign at most 0 means D = 0 here); the public
point is computed by base-point scalar multiplication of the scalar bytes,
and absent coordinates (the point at infinity in the model) fail. -/
def toECDSA (d : List Nat) (strict : Bool) : Except KeyError PrivateKey :=
  if strict = true ∧ 8 * d.length ≠ 256 then .error .invalidKeyLength
  else if secp256k1N ≤ fromBytes d then .error .keyOutOfRange
  else if fromBytes d = 0 then .error .keyNonPositive
  else
    match scalarBaseMult (fromBytes d) with
    | none => .error .invalidPoint
    | some p => .ok ⟨fromBytes d, p⟩

/-- Embedding of ToECDSA from crypto.go: strict decode. -/
def ToECDSA (d : List Nat) : Except KeyError PrivateKey :=
  toECDSA d true

/-- Embedding of ToECDSAUnsafe from crypto.go: lenient decode that drops the
error return of toECDSA with a blank identifier and hands back only the
(possibly nil) pointer, rendered as an Option. -/
def ToECDSAUnsafe (d : List Nat) : Option PrivateKey :=
  (toECDSA d false).toOption

/-- Modelled from the spec: PaddedBigBytes of the big-integer collaborator
(lib/math, not part of this snapshot) — the scalar serialized as a
fixed-width big-endian byte sequence padded to the curve coordinate width. -/
def paddedBigBytes (n len : Nat) : List Nat :=
  natToBytesBE n len

/-- Embedding of FromECDSA from crypto.go: nil-safe projection of a private
key to its 32-byte big-endian dump; an absent key yields the empty (nil)
byte sequence. -/
def FromECDSA : Option PrivateKey → List Nat
  | none => []
  | some priv => paddedBigBytes priv.D 32

/-- Modelled from the spec: the digest of the 256-bit hash engine. The Keccak
permutation (lib/crypto/sha3) is not part of this repository snapshot; the
spec constrains the digest only to be a deterministic pure function of the
absorbed byte stream returning exactly 32 bytes. It is modelled as the
stream read as a big-endian integer and reduced into a fixed 32-byte
block. -/
def digest256 (input : List Nat) : List Nat :=
  natToBytesBE (fromBytes input % 2 ^ 256) 32

/-- Modelled from the spec: the streaming hasher absorbs buffers in argument
order, so its state is the byte stream absorbed so far and Write appends the
next buffer to it. -/
def keccakWrite (st b : List Nat) : List Nat := st ++ b

/-- Modelled from the spec: Sum finalizes the streaming hasher, producing the
digest of the absorbed stream. -/
def keccakSum (st : List Nat) : List Nat := digest256 st

/-- Embedding of Keccak256 from crypto.go: a fresh hasher, one Write per
input buffer in argument order, then Sum. It is total (any byte sequences,
including none at all, are valid input) and deterministic, being a pure
function of its argument list. -/
def Keccak256 (data : List (List Nat)) : List Nat :=
  keccakSum (data.foldl keccakWrite [])

/-- Embedding of ValidateSignatureValues from crypto.go. The recovery
identifier v is a byte, modelled by its numeric value; r and s are big.Int
values, which can be negative, hence Int. The constant Big1 of chain_common
is the integer one. -/
def ValidateSignatureValues (v : Nat) (r s : Int) (homestead : Bool) : Bool :=
  if r < 1 ∨ s < 1 then false
  else if homestead = true ∧ (secp256k1halfN : Int) < s then false
  else
    decide (r < (secp256k1N : Int)) && decide (s < (secp256k1N : Int)) &&
      (decide (v = 0) || decide (v = 1))

/-- Public key as in ecdsa.PublicKey: two big.Int coordinate pointers, either
of which can be nil, modelled by Options. The curve field is the fixed
secp256k1 curve and carries no information. -/
structure PublicKey where
  X : Option Nat
  Y : Option Nat
  deriving DecidableEq, Repr

/-- Modelled from the spec: elliptic.Marshal of the curve collaborator — the
fixed-format point encoding: a format tag byte (4, the uncompressed tag)
followed by the two coordinates, each a fixed-width 32-byte big-endian
block. -/
def marshalPoint (x y : Nat) : List Nat :=
  4 :: (natToBytesBE x 32 ++ natToBytesBE y 32)

/-- Embedding of FromECDSAPub from crypto.go: nil-safe projection of a public
key to its point encoding; an absent key or an absent coordinate yields the
empty (nil) byte sequence. -/
def FromECDSAPub (pub : Option PublicKey) : List Nat :=
  match pub with
  | none => []
  | some p =>
      match p.X, p.Y with
      | some x, some y => marshalPoint x y
      | _, _ => []

/-- Modelled from the spec: BytesToAddress of chain_common — an address keeps
the low 20 bytes of the input, left-padded with zero bytes when the input is
shorter than 20 bytes. -/
def bytesToAddress (b : List Nat) : List Nat :=
  if 20 ≤ b.length then b.drop (b.length - 20)
  else List.replicate (20 - b.length) 0 ++ b

/-- Embedding of PubkeyToAddress from crypto.go: encode the key with
FromECDSAPub, slice off the first byte, hash with Keccak256, keep the digest
from offset 12 on, convert to an address. Slicing one byte off an empty
(nil) sequence is a bounds panic in the source, rendered as none. -/
def PubkeyToAddress (p : PublicKey) : Option (List Nat) :=
  match FromECDSAPub (some p) with
  | [] => none
  | _ :: rest => some (bytesToAddress ((Keccak256 [rest]).drop 12))

/-- Statement of the address-derivation rule written from the words of the
spec, for comparison against the embedding of PubkeyToAddress: encode the
public key to its point-encoding byte form, drop the first byte (the
curve-point format tag), hash the remainder with the 256-bit hash, take
bytes 12 through 31 (the low 20 bytes) of the 32-byte digest. -/
def addressFromPublicKey (x y : Nat) : List Nat :=
  ((digest256 ((marshalPoint x y).drop 1)).drop 12).take 20

/-- Modelled from the spec: minimal big-endian encoding of a uint64 used by
the structured-encoding collaborator — leading zero bytes stripped, zero
encoding to the empty sequence. -/
def minimalBE (n : Nat) : List Nat :=
  (natToBytesBE n 8).dropWhile (· == 0)

/-- Modelled from the spec: the structured-encoding (RLP) collaborator rule
for a byte string — a single byte below 128 is its own encoding; otherwise a
header carrying the length precedes the bytes. -/
def rlpBytes (b : List Nat) : List Nat :=
  if b.length = 1 ∧ b.headI < 128 then b
  else if b.length ≤ 55 then (128 + b.length) :: b
  else (183 + (minimalBE b.length).length) :: (minimalBE b.length ++ b)

/-- Modelled from the spec: the structured-encoding (RLP) collaborator rule
for an unsigned integer — minimal big-endian bytes (empty for zero) encoded
as a byte string. -/
def rlpUint (n : Nat) : List Nat := rlpBytes (minimalBE n)

/-- Modelled from the spec: the structured-encoding (RLP) collaborator rule
for a list — a header carrying the total payload length precedes the
concatenated element encodings. -/
def rlpList (payload : List Nat) : List Nat :=
  if payload.length ≤ 55 then (192 + payload.length) :: payload
  else (247 + (minimalBE payload.length).length) ::
    (minimalBE payload.length ++ payload)

/-- Embedding of CreateAddress from crypto.go: encode the ordered pair of the
20-byte owner address and the nonce with the structured encoder, hash the
encoding with Keccak256, keep the digest bytes from offset 12 on, convert to
an address. The error return of the encoder is dropped with a blank
identifier in the source; the modelled encoder is total. -/
def CreateAddress (b : List Nat) (nonce : Nat) : List Nat :=
  bytesToAddress ((Keccak256 [rlpList (rlpBytes b ++ rlpUint nonce)]).drop 12)

/-! Helper lemmas about byte sequences and their big-endian values. -/

theorem foldl_be (l : List Nat) (acc : Nat) :
    l.foldl (fun a x => 256 * a + x) acc =
      acc * 256 ^ l.length + fromBytes l := by
  induction l generalizing acc with
  | nil => simp [fromBytes]
  | cons b t ih =>
      show List.foldl _ (256 * acc + b) t = _
      rw [ih (256 * acc + b)]
      have hb : fromBytes (b :: t) = b * 256 ^ t.length + fromBytes t := by
        show List.foldl _ (256 * 0 + b) t = _
        rw [ih (256 * 0 + b)]
        ring
      rw [List.length_cons, hb, pow_succ]
      ring

theorem fromBytes_append (l₁ l₂ : List Nat) :
    fromBytes (l₁ ++ l₂) = fromBytes l₁ * 256 ^ l₂.length + fromBytes l₂ := by
  unfold fromBytes
  rw [List.foldl_append]
  exact foldl_be l₂ (List.foldl (fun a x => 256 * a + x) 0 l₁)

theorem fromBytes_zero_cons (l : List Nat) :
    fromBytes (0 :: l) = fromBytes l := by
  show List.foldl _ (256 * 0 + 0) l = List.foldl _ 0 l
  norm_num

theorem natToBytesBE_length (n len : Nat) :
    (natToBytesBE n len).length = len := by
  induction len generalizing n with
  | zero => rfl
  | succ k ih => simp [natToBytesBE, ih]

theorem fromBytes_natToBytesBE (n len : Nat) :
    fromBytes (natToBytesBE n len) = n % 256 ^ len := by
  induction len generalizing n with
  | zero => simp [natToBytesBE, fromBytes, Nat.mod_one]
  | succ k ih =>
      rw [natToBytesBE, fromBytes_append, ih]
      have h1 : fromBytes [n % 256] = n % 256 := by
        show 256 * 0 + n % 256 = n % 256
        ring
      have h2 : ([n % 256] : List Nat).length = 1 := rfl
      rw [h1, h2, pow_one, pow_succ, mul_comm (256 ^ k) 256, Nat.mod_mul]
      ring

theorem natToBytesBE_split (n a b : Nat) :
    natToBytesBE n (a + b) =
      natToBytesBE (n / 256 ^ b) a ++ natToBytesBE (n % 256 ^ b) b := by
  induction b generalizing n with
  | zero => simp [natToBytesBE]
  | succ k ih =>
      show natToBytesBE n (a + k + 1) = _
      rw [natToBytesBE, ih (n / 256)]
      rw [natToBytesBE]
      have hd : n / 256 / 256 ^ k = n / 256 ^ (k + 1) := by
        rw [Nat.div_div_eq_div_mul, ← pow_succ']
      have hm : n / 256 % 256 ^ k = n % 256 ^ (k + 1) / 256 := by
        rw [pow_succ', Nat.mod_mul_right_div_self]
      have hlow : n % 256 = n % 256 ^ (k + 1) % 256 := by
        rw [Nat.mod_mod_of_dvd n (dvd_pow_self 256 (Nat.succ_ne_zero k))]
      rw [hd, hm, hlow, List.append_assoc]

theorem fromBytes_lt (l : List Nat) (h : ∀ x ∈ l, x < 256) :
    fromBytes l < 256 ^ l.length := by
  induction l with
  | nil => simp [fromBytes]
  | cons b t ih =>
      have hb : b < 256 := h b (List.mem_cons_self b t)
      have ht : fromBytes t < 256 ^ t.length := by
        refine ih fun x hx => h x (List.mem_cons_of_mem b hx)
      have hcons : fromBytes (b :: t) = b * 256 ^ t.length + fromBytes t := by
        have := fromBytes_append [b] t
        simpa [fromBytes] using this
      rw [hcons, List.length_cons, pow_succ]
      calc b * 256 ^ t.length + fromBytes t
          < b * 256 ^ t.length + 256 ^ t.length := by omega
        _ = (b + 1) * 256 ^ t.length := by ring
        _ ≤ 256 * 256 ^ t.length := by
            have hb1 : b + 1 ≤ 256 := hb
            exact Nat.mul_le_mul_right _ hb1
        _ = 256 ^ t.length * 256 := by ring

theorem secp256k1N_lt_pow : secp256k1N < 256 ^ 32 := by decide

theorem secp256k1N_pos : 0 < secp256k1N := by decide

/-- Characterization of toECDSA on an in-range scalar: decoding succeeds and
yields the scalar read from the bytes together with its base-point
multiple. -/
theorem toECDSA_ok (d : List Nat) (strict : Bool)
    (hlen : strict = true → d.length = 32)
    (h0 : 0 < fromBytes d) (hN : fromBytes d < secp256k1N) :
    toECDSA d strict = .ok ⟨fromBytes d, fromBytes d⟩ := by
  have hcond : ¬(strict = true ∧ 8 * d.length ≠ 256) := by
    rintro ⟨hs, hne⟩
    exact hne (by rw [hlen hs])
  have hsbm : scalarBaseMult (fromBytes d) = some (fromBytes d) := by
    unfold scalarBaseMult
    rw [Nat.mod_eq_of_lt hN]
    exact if_neg (Nat.pos_iff_ne_zero.mp h0)
  unfold toECDSA
  rw [if_neg hcond, if_neg (not_le.mpr hN),
    if_neg (Nat.pos_iff_ne_zero.mp h0), hsbm]

/-- C1: ValidateSignatureValues returns true for (v, r, s, forkFlag) if and
only if r and s are at least one, s is at most half the group order when the
fork flag is set, r and s are below the group order and v is exactly zero or
one — for every choice of v, r, s and both values of the fork flag. -/
theorem validateSignatureValues_iff (v : Nat) (r s : Int) (homestead : Bool) :
    ValidateSignatureValues v r s homestead = true ↔
      1 ≤ r ∧ 1 ≤ s ∧ (homestead = true → s ≤ (secp256k1halfN : Int)) ∧
        r < (secp256k1N : Int) ∧ s < (secp256k1N : Int) ∧ (v = 0 ∨ v = 1) := by
  unfold ValidateSignatureValues
  split_ifs with h1 h2
  · simp only [Bool.false_eq_true, false_iff]
    rintro ⟨hr, hs, -, -, -, -⟩
    rcases h1 with h | h <;> omega
  · simp only [Bool.false_eq_true, false_iff]
    rintro ⟨-, -, hhalf, -, -, -⟩
    have hle := hhalf h2.1
    have hgt := h2.2
    omega
  · push_neg at h1 h2
    simp only [Bool.and_eq_true, Bool.or_eq_true, decide_eq_true_eq]
    constructor
    · rintro ⟨⟨hr, hs⟩, hv⟩
      exact ⟨h1.1, h1.2, h2, hr, hs, hv⟩
    · rintro ⟨-, -, -, hr, hs, hv⟩
      exact ⟨⟨hr, hs⟩, hv⟩

/-- C2: in both modes, once the strict length check passes, toECDSA fails
with the out-of-range error whenever the big-endian value D of the bytes is
at least the group order, fails with the non-positive error whenever D is
zero (the only possibility for D at most zero given an unsigned big-endian
read), and never constructs a key whose scalar lies outside the open
interval from zero to the group order. -/
theorem toECDSA_scalar_range (d : List Nat) (strict : Bool)
    (hlen : strict = true → d.length = 32) :
    (secp256k1N ≤ fromBytes d → toECDSA d strict = .error .keyOutOfRange) ∧
    (fromBytes d = 0 → toECDSA d strict = .error .keyNonPositive) ∧
    ∀ k, toECDSA d strict = .ok k → 0 < k.D ∧ k.D < secp256k1N := by
  have hcond : ¬(strict = true ∧ 8 * d.length ≠ 256) := by
    rintro ⟨hs, hne⟩
    exact hne (by rw [hlen hs])
  refine ⟨fun hge => ?_, fun h0 => ?_, fun k hk => ?_⟩
  · unfold toECDSA
    rw [if_neg hcond, if_pos hge]
  · unfold toECDSA
    rw [if_neg hcond,
      if_neg (by rw [h0]; exact Nat.not_le.mpr secp256k1N_pos), if_pos h0]
  · by_cases hge : secp256k1N ≤ fromBytes d
    · unfold toECDSA at hk
      rw [if_neg hcond, if_pos hge] at hk
      simp at hk
    · by_cases h0 : fromBytes d = 0
      · unfold toECDSA at hk
        rw [if_neg hcond,
          if_neg (by rw [h0]; exact Nat.not_le.mpr secp256k1N_pos),
          if_pos h0] at hk
        simp at hk
      · have hlt : fromBytes d < secp256k1N := not_le.mp hge
        have hpos : 0 < fromBytes d := Nat.pos_of_ne_zero h0
        rw [toECDSA_ok d strict hlen hpos hlt] at hk
        simp only [Except.ok.injEq] at hk
        subst hk
        exact ⟨hpos, hlt⟩

/-- Witness for C2 at the 32-byte big-endian encodings of N, N + 1 and 0. -/
theorem toECDSA_scalar_range_witness :
    toECDSA (natToBytesBE secp256k1N 32) true = .error .keyOutOfRange ∧
    toECDSA (natToBytesBE (secp256k1N + 1) 32) true = .error .keyOutOfRange ∧
    toECDSA (natToBytesBE 0 32) true = .error .keyNonPositive :=
  ⟨(toECDSA_scalar_range _ true fun _ => natToBytesBE_length _ _).1
      (by rw [fromBytes_natToBytesBE]; decide),
   (toECDSA_scalar_range _ true fun _ => natToBytesBE_length _ _).1
      (by rw [fromBytes_natToBytesBE]; decide),
   (toECDSA_scalar_range _ true fun _ => natToBytesBE_length _ _).2.1
      (by rw [fromBytes_natToBytesBE]; decide)⟩

/-- C3: strict decode fails with the invalid-length error for every input
whose byte length is not exactly 32, while the length check is not applied
in lenient mode: lenient decode never reports an invalid length and accepts
an input of any length whose big-endian value is a valid scalar, reading the
bytes as a big-endian unsigned integer. -/
theorem strict_length_check (d : List Nat) :
    (d.length ≠ 32 → ToECDSA d = .error .invalidKeyLength) ∧
    toECDSA d false ≠ .error .invalidKeyLength ∧
    (0 < fromBytes d → fromBytes d < secp256k1N →
      ∃ k, ToECDSAUnsafe d = some k ∧ k.D = fromBytes d) := by
  refine ⟨fun hne => ?_, ?_, fun h0 hN => ?_⟩
  · unfold ToECDSA toECDSA
    rw [if_pos ⟨rfl, by omega⟩]
  · unfold toECDSA
    rw [if_neg (by simp)]
    split_ifs <;> try simp
    cases hs : scalarBaseMult (fromBytes d) with
    | none => simp [hs]
    | some p => simp [hs]
  · have hk := toECDSA_ok d false (fun h => absurd h (by simp)) h0 hN
    exact ⟨⟨fromBytes d, fromBytes d⟩, by unfold ToECDSAUnsafe; rw [hk]; rfl,
      rfl⟩

/-- Witness for C3 at the two-byte input [1, 0] (value 256): strict decode
rejects the length, lenient decode accepts and reads the value 256. -/
theorem strict_length_check_witness :
    ToECDSA [1, 0] = .error .invalidKeyLength ∧
    ∃ k, ToECDSAUnsafe [1, 0] = some k ∧ k.D = fromBytes [1, 0] :=
  ⟨(strict_length_check [1, 0]).1 (by decide),
   (strict_length_check [1, 0]).2.2 (by decide) (by decide)⟩

theorem digest256_length (l : List Nat) : (digest256 l).length = 32 :=
  natToBytesBE_length _ _

theorem bytesToAddress_of_length (l : List Nat) (h : l.length = 20) :
    bytesToAddress l = l := by
  unfold bytesToAddress
  rw [if_pos (by omega), h]
  simp

theorem keccak256_single (l : List Nat) : Keccak256 [l] = digest256 l := rfl

/-- C5: for every scalar d strictly between zero and the group order, strict
decode of its 32-byte big-endian encoding succeeds with scalar d, and strict
decode of the encode (the padded fixed-width dump) of the resulting key
succeeds again with the same scalar. -/
theorem decode_encode_roundtrip (d : Nat) (h0 : 0 < d)
    (hN : d < secp256k1N) :
    ∃ k, toECDSA (natToBytesBE d 32) true = .ok k ∧ k.D = d ∧
      ∃ k2, toECDSA (FromECDSA (some k)) true = .ok k2 ∧ k2.D = d := by
  have hval : fromBytes (natToBytesBE d 32) = d := by
    rw [fromBytes_natToBytesBE]
    exact Nat.mod_eq_of_lt (lt_trans hN secp256k1N_lt_pow)
  have hk := toECDSA_ok (natToBytesBE d 32) true
    (fun _ => natToBytesBE_length _ _) (by rw [hval]; exact h0)
    (by rw [hval]; exact hN)
  rw [hval] at hk
  refine ⟨⟨d, d⟩, hk, rfl, ⟨d, d⟩, ?_, rfl⟩
  show toECDSA (natToBytesBE d 32) true = _
  exact hk

/-- Witness for C5 at the scalar one. -/
theorem decode_encode_roundtrip_witness :
    0 < 1 ∧ 1 < secp256k1N ∧
    ∃ k, toECDSA (natToBytesBE 1 32) true = .ok k ∧ k.D = 1 ∧
      ∃ k2, toECDSA (FromECDSA (some k)) true = .ok k2 ∧ k2.D = 1 :=
  ⟨Nat.one_pos, by decide,
   decode_encode_roundtrip 1 Nat.one_pos (by decide)⟩

/-- C6: for every 31-byte input whose big-endian value is a valid scalar,
lenient decode succeeds and yields the very same private key (same scalar
and same public point) as strict decode of the 32-byte input obtained by
prepending one zero byte. -/
theorem lenient_strict_agree (b : List Nat) (hlen : b.length = 31)
    (_hbytes : ∀ x ∈ b, x < 256)
    (h0 : 0 < fromBytes b) (hN : fromBytes b < secp256k1N) :
    ∃ k, toECDSA b false = .ok k ∧ toECDSA (0 :: b) true = .ok k := by
  have hzc : fromBytes (0 :: b) = fromBytes b := fromBytes_zero_cons b
  refine ⟨⟨fromBytes b, fromBytes b⟩, ?_, ?_⟩
  · exact toECDSA_ok b false (fun h => absurd h (by simp)) h0 hN
  · have hk := toECDSA_ok (0 :: b) true (fun _ => by simp [hlen])
      (by rw [hzc]; exact h0) (by rw [hzc]; exact hN)
    rw [hzc] at hk
    exact hk

/-- Witness for C6 at the 31-byte encoding of the scalar seven. -/
theorem lenient_strict_agree_witness :
    (natToBytesBE 7 31).length = 31 ∧
    ∃ k, toECDSA (natToBytesBE 7 31) false = .ok k ∧
      toECDSA (0 :: natToBytesBE 7 31) true = .ok k :=
  ⟨natToBytesBE_length 7 31,
   lenient_strict_agree (natToBytesBE 7 31) (natToBytesBE_length 7 31)
     (by decide) (by decide) (by decide)⟩

/-- C4: for every public key with both coordinates present, PubkeyToAddress
succeeds and equals the spec formula — marshal the key to its point
encoding, drop the first byte, apply the 256-bit hash, take bytes 12
through 31 of the 32-byte digest — and the result has exactly 20 bytes.
Determinism for a fixed key is definitional: both sides are pure
functions. -/
theorem pubkeyToAddress_spec (p : PublicKey) (x y : Nat)
    (hx : p.X = some x) (hy : p.Y = some y) :
    PubkeyToAddress p = some (addressFromPublicKey x y) ∧
    (addressFromPublicKey x y).length = 20 := by
  have hlen20 :
      ((digest256 (natToBytesBE x 32 ++ natToBytesBE y 32)).drop 12).length
        = 20 := by
    rw [List.length_drop, digest256_length]
  have hspec : addressFromPublicKey x y =
      (digest256 (natToBytesBE x 32 ++ natToBytesBE y 32)).drop 12 := by
    unfold addressFromPublicKey
    rw [show (marshalPoint x y).drop 1 =
      natToBytesBE x 32 ++ natToBytesBE y 32 from rfl]
    exact List.take_of_length_le (le_of_eq hlen20)
  constructor
  · have henc : FromECDSAPub (some p) = marshalPoint x y := by
      show (match p.X, p.Y with
        | some x, some y => marshalPoint x y
        | _, _ => []) = marshalPoint x y
      rw [hx, hy]
    unfold PubkeyToAddress
    rw [henc]
    show some
      (bytesToAddress
        ((Keccak256 [natToBytesBE x 32 ++ natToBytesBE y 32]).drop 12)) = _
    rw [keccak256_single, bytesToAddress_of_length _ hlen20, hspec]
  · rw [hspec]
    exact hlen20

/-- Witness for C4 at the point with coordinates one and two. -/
theorem pubkeyToAddress_spec_witness :
    PubkeyToAddress ⟨some 1, some 2⟩ = some (addressFromPublicKey 1 2) ∧
    (addressFromPublicKey 1 2).length = 20 :=
  pubkeyToAddress_spec ⟨some 1, some 2⟩ 1 2 rfl rfl

/-- C7: Keccak256 over any list of buffers equals Keccak256 of their
concatenation in argument order, and the digest always has exactly 32
bytes. The operation is total — the empty buffer list is valid input — and
deterministic, being a pure function of its arguments. -/
theorem keccak256_concat (data : List (List Nat)) :
    Keccak256 data = Keccak256 [data.flatten] ∧
    (Keccak256 data).length = 32 := by
  have hfold : ∀ (l : List (List Nat)) (acc : List Nat),
      l.foldl keccakWrite acc = acc ++ l.flatten := by
    intro l
    induction l with
    | nil => intro acc; simp
    | cons hb t ih =>
        intro acc
        show List.foldl keccakWrite (acc ++ hb) t = acc ++ (hb :: t).flatten
        rw [ih (acc ++ hb)]
        simp [List.append_assoc]
  constructor
  · unfold Keccak256
    rw [hfold data [], hfold [data.flatten] []]
    simp
  · unfold Keccak256 keccakSum
    exact digest256_length _

theorem digest_low20 (l : List Nat) (hb : ∀ x ∈ l, x < 256)
    (hl : l.length ≤ 32) :
    bytesToAddress ((Keccak256 [l]).drop 12) =
      natToBytesBE (fromBytes l % 256 ^ 20) 20 := by
  have hlt : fromBytes l < 2 ^ 256 := by
    calc fromBytes l < 256 ^ l.length := fromBytes_lt l hb
      _ ≤ 256 ^ 32 := Nat.pow_le_pow_right (by norm_num) hl
      _ = 2 ^ 256 := by norm_num
  rw [keccak256_single]
  unfold digest256
  rw [Nat.mod_eq_of_lt hlt]
  rw [show (32 : Nat) = 12 + 20 from rfl, natToBytesBE_split]
  rw [List.drop_left' (natToBytesBE_length _ 12)]
  rw [bytesToAddress_of_length _ (natToBytesBE_length _ 20)]

/-- C8: for every fixed 20-byte owner address, the derived contract address
for nonce zero differs from the one for nonce one — the structured encoding
of the pair and the truncation of the hash keep the nonce observable in the
20-byte output. -/
theorem createAddress_nonce_sensitive (addr : List Nat)
    (hlen : addr.length = 20) (hbytes : ∀ x ∈ addr, x < 256) :
    CreateAddress addr 0 ≠ CreateAddress addr 1 := by
  have hr : rlpBytes addr = 148 :: addr := by
    unfold rlpBytes
    rw [if_neg (by rintro ⟨h1, -⟩; omega), if_pos (by omega), hlen]
  have h0enc : rlpUint 0 = [128] := by decide
  have h1enc : rlpUint 1 = [1] := by decide
  have hpay : ∀ u : Nat, rlpList ((148 :: addr) ++ [u]) =
      (214 :: 148 :: addr) ++ [u] := by
    intro u
    have hl22 : ((148 :: addr) ++ [u]).length = 22 := by simp [hlen]
    unfold rlpList
    rw [hl22, if_pos (by norm_num)]
    simp [List.cons_append]
  have hb' : ∀ u : Nat, u < 256 →
      ∀ x ∈ (214 :: 148 :: addr) ++ [u], x < 256 := by
    intro u hu x hx
    rcases List.mem_append.mp hx with h | h
    · simp only [List.mem_cons] at h
      rcases h with rfl | rfl | h
      · norm_num
      · norm_num
      · exact hbytes x h
    · have hxu : x = u := List.mem_singleton.mp h
      omega
  have hl23 : ∀ u : Nat, ((214 :: 148 :: addr) ++ [u]).length ≤ 32 := by
    intro u
    simp [hlen]
  have hdata : ∀ u : Nat, fromBytes ((214 :: 148 :: addr) ++ [u]) =
      fromBytes (214 :: 148 :: addr) * 256 + u := by
    intro u
    rw [fromBytes_append]
    simp [fromBytes]
  intro heq
  unfold CreateAddress at heq
  rw [hr, h0enc, h1enc, hpay 128, hpay 1,
    digest_low20 _ (hb' 128 (by norm_num)) (hl23 128),
    digest_low20 _ (hb' 1 (by norm_num)) (hl23 1)] at heq
  have hinj := congrArg fromBytes heq
  rw [fromBytes_natToBytesBE, fromBytes_natToBytesBE,
    Nat.mod_mod_of_dvd _ dvd_rfl, Nat.mod_mod_of_dvd _ dvd_rfl,
    hdata 128, hdata 1] at hinj
  have hme : fromBytes (214 :: 148 :: addr) * 256 + 128 ≡
      fromBytes (214 :: 148 :: addr) * 256 + 1 [MOD 256 ^ 20] := hinj
  have h127 : (128 : Nat) ≡ 1 [MOD 256 ^ 20] :=
    Nat.ModEq.add_left_cancel' (fromBytes (214 :: 148 :: addr) * 256) hme
  have hdvd : (256 : Nat) ^ 20 ∣ 127 := by
    have hd := (Nat.modEq_iff_dvd' (by norm_num)).mp h127.symm
    simpa using hd
  have hle := Nat.le_of_dvd (by norm_num) hdvd
  norm_num at hle

/-- Witness for C8 at the all-zero 20-byte owner address. -/
theorem createAddress_nonce_sensitive_witness :
    CreateAddress (List.replicate 20 0) 0 ≠ CreateAddress (List.replicate 20 0) 1 :=
  createAddress_nonce_sensitive (List.replicate 20 0) (by decide) (by decide)

/-- C9 counterexample: lenient decode does not surface the decode error as a
value. At the 32-byte encodings of N and of 0 the underlying decoder reports
two different errors (out of range, non-positive), yet ToECDSAUnsafe drops
the error return with a blank identifier and yields the same absent (nil)
key in both cases, so the failure reason never reaches the caller. -/
theorem toECDSAUnsafe_swallows :
    toECDSA (natToBytesBE secp256k1N 32) false = .error .keyOutOfRange ∧
    toECDSA (natToBytesBE 0 32) false = .error .keyNonPositive ∧
    ToECDSAUnsafe (natToBytesBE secp256k1N 32) = none ∧
    ToECDSAUnsafe (natToBytesBE 0 32) = none :=
  ⟨rfl, rfl, rfl, rfl⟩

/-- C9 amended: besides the two nil-safe projections, the lenient decode
ToECDSAUnsafe also swallows errors — every failure of the underlying decoder
is mapped to an absent key with no error value returned to the caller. -/
theorem toECDSAUnsafe_swallows_amended (d : List Nat) (e : KeyError)
    (h : toECDSA d false = .error e) : ToECDSAUnsafe d = none := by
  unfold ToECDSAUnsafe
  rw [h]
  rfl

/-- Witness for the amended C9 at the all-zero 32-byte input. -/
theorem toECDSAUnsafe_swallows_amended_witness :
    ToECDSAUnsafe (natToBytesBE 0 32) = none :=
  toECDSAUnsafe_swallows_amended _ .keyNonPositive rfl

/-- C10: the address derivation from a public key is total exactly when both
coordinates are present — with an absent coordinate the nil-safe projection
FromECDSAPub returns the empty sequence and slicing off its first byte is an
out-of-bounds panic (none); with both coordinates present the slice is in
bounds and an address is produced. -/
theorem pubkeyToAddress_totality (p : PublicKey) :
    (FromECDSAPub (some p) = [] ↔ p.X = none ∨ p.Y = none) ∧
    (PubkeyToAddress p = none ↔ p.X = none ∨ p.Y = none) := by
  obtain ⟨X, Y⟩ := p
  cases X <;> cases Y <;>
    simp [FromECDSAPub, PubkeyToAddress, marshalPoint]
